import Mathlib

/-!
Verification of the load/merge engine of `sunshine/etl.py` (Illinois Sunshine).

The relational state is modelled shallowly: a table is a `List` of rows, a row
is a record of its key column(s) plus an opaque payload of nullable text
fields.  Each dataset's `upsert` SQL statement (an `UPDATE ... FROM staging`
joined on the key, followed by an anti-join `INSERT`) is translated into a
pure function on such lists.  SQL's `UPDATE ... FROM` picks an arbitrary
matching staging row when several share a key; the model picks the first, so
theorems that depend on the choice carry a key-uniqueness hypothesis
(`Nodup` of the mapped keys), which is the primary-key discipline the real
tables have.
-/

/-! ### Generic key lookup machinery shared by all dataset drivers -/

/-- First row of `s` whose key equals `k` (the row the SQL join matches). -/
def findKey {α K : Type} [DecidableEq K] (key : α → K) (s : List α) (k : K) : Option α :=
  s.find? (fun r => decide (key r = k))

/-- Whether some row of `t` has key `k` (the `LEFT JOIN ... IS NULL` test). -/
def hasKeyBy {α K : Type} [DecidableEq K] (key : α → K) (t : List α) (k : K) : Bool :=
  t.any (fun r => decide (key r = k))

theorem findKey_eq_some {α K : Type} [DecidableEq K] {key : α → K} {s : List α} {k : K}
    {r : α} (h : findKey key s k = some r) : key r = k ∧ r ∈ s := by
  constructor
  · have := List.find?_some h
    simpa using this
  · exact List.mem_of_find?_eq_some h

theorem findKey_self {α K : Type} [DecidableEq K] (key : α → K) {s : List α} {r : α}
    (hs : (s.map key).Nodup) (h : r ∈ s) : findKey key s (key r) = some r := by
  cases h2 : findKey key s (key r) with
  | none =>
    exfalso
    have := List.find?_eq_none.mp h2 r h
    simp at this
  | some r2 =>
    obtain ⟨hk, hm⟩ := findKey_eq_some h2
    rw [List.inj_on_of_nodup_map hs hm h hk]

theorem hasKeyBy_true_iff {α K : Type} [DecidableEq K] (key : α → K) {t : List α} {k : K} :
    hasKeyBy key t k = true ↔ ∃ r ∈ t, key r = k := by
  simp [hasKeyBy]

theorem hasKeyBy_false_iff {α K : Type} [DecidableEq K] (key : α → K) {t : List α} {k : K} :
    hasKeyBy key t k = false ↔ ∀ r ∈ t, key r ≠ k := by
  simp [hasKeyBy]

theorem filter_key_single {α K : Type} [DecidableEq K] (key : α → K) {t : List α} {k : K}
    (ht : (t.map key).Nodup) {r : α} (hr : r ∈ t) (hk : key r = k) :
    t.filter (fun x => decide (key x = k)) = [r] := by
  induction t with
  | nil => cases hr
  | cons a l ih =>
    rw [List.map_cons, List.nodup_cons] at ht
    rcases List.mem_cons.mp hr with rfl | hr2
    · rw [List.filter_cons_of_pos (by simpa using hk)]
      have : l.filter (fun x => decide (key x = k)) = [] := by
        rw [List.filter_eq_nil_iff]
        intro x hx
        simp only [decide_eq_true_eq]
        intro hxk
        exact ht.1 (by rw [← hk, ← hxk] at *; exact List.mem_map_of_mem key hx)
      rw [this]
    · have hak : ¬ key a = k := by
        intro hak
        apply ht.1
        have := List.mem_map_of_mem key hr2
        rw [hk, ← hak] at this
        exact this
      rw [List.filter_cons_of_neg (by simpa using hak)]
      exact ih ht.2 hr2

theorem filter_key_nil {α K : Type} [DecidableEq K] (key : α → K) {t : List α} {k : K}
    (h : hasKeyBy key t k = false) :
    t.filter (fun x => decide (key x = k)) = [] := by
  rw [List.filter_eq_nil_iff]
  intro x hx
  simp only [decide_eq_true_eq]
  exact (hasKeyBy_false_iff key).mp h x hx

theorem filter_map_key {α β K : Type} [DecidableEq K] (key : α → K) (kb : β → K)
    (g : β → α) (hg : ∀ b, key (g b) = kb b) (l : List β) (k : K) :
    (l.map g).filter (fun x => decide (key x = k)) =
      (l.filter (fun b => decide (kb b = k))).map g := by
  rw [List.filter_map]
  congr 1
  apply List.filter_congr
  intro b _
  simp [Function.comp, hg b]

theorem hasKeyBy_filter {α K : Type} [DecidableEq K] (key : α → K) {k : K}
    (q : α → Bool) (hq : ∀ x, key x = k → q x = true) (t : List α) :
    hasKeyBy key (t.filter q) k = hasKeyBy key t k := by
  induction t with
  | nil => rfl
  | cons a l ih =>
    by_cases hqa : q a = true
    · simp [hasKeyBy, List.filter_cons, hqa, List.any_cons] at *
      rw [ih]
    · have hak : ¬ key a = k := fun hk => hqa (hq a hk)
      simp [hasKeyBy, List.filter_cons, hqa, List.any_cons, hak] at *
      rw [ih]

/-! ### The generic target/staging relation model

A `Row` is one record of a target (or staging) relation: its `id` key column
plus the remaining columns as an opaque payload. -/

structure Row where
  id : Nat
  fields : List (Option String)
deriving DecidableEq, Repr

/-- The `UPDATE {t} SET f = subq.f ... WHERE {t}.id = subq.id` arm of
`SunshineTransformLoad.upsert`: a target row matched on `id` has every
header field (including `id`, which the join fixes) set from the staging
row, i.e. it is replaced by the staging row; an unmatched row is kept. -/
def applyUpdate (staging : List Row) (r : Row) : Row :=
  (findKey Row.id staging r.id).getD r

/-- The `INSERT INTO {t} SELECT temp.* FROM temp_{t} LEFT JOIN {t} USING(id)
WHERE data.id IS NULL` arm of `SunshineTransformLoad.upsert`: staging rows
whose `id` is absent from the target. -/
def insertedRows (target staging : List Row) : List Row :=
  staging.filter (fun sr => !(hasKeyBy Row.id target sr.id))

/-- `SunshineTransformLoad.upsert` (executed by `update`): update matched
target rows from staging, then insert the anti-join remainder. -/
def upsert (target staging : List Row) : List Row :=
  target.map (applyUpdate staging) ++ insertedRows target staging

theorem applyUpdate_id (staging : List Row) (r : Row) :
    (applyUpdate staging r).id = r.id := by
  unfold applyUpdate
  cases h : findKey Row.id staging r.id with
  | none => rfl
  | some r2 => simpa using (findKey_eq_some h).1

theorem applyUpdate_applyUpdate (s : List Row) (r : Row) :
    applyUpdate s (applyUpdate s r) = applyUpdate s r := by
  unfold applyUpdate
  cases h : findKey Row.id s r.id with
  | none => simp [h]
  | some r2 =>
    have hid : Row.id r2 = r.id := (findKey_eq_some h).1
    simp only [Option.getD_some]
    rw [hid, h]
    rfl

/-- C1. The merge is idempotent: re-running `SunshineTransformLoad.upsert`
with the same staging contents leaves the target identical — the second
pass updates every matched row to the value it already has and finds no
key left to insert.  The hypothesis is that the staged rows carry distinct
keys (the primary-key discipline of the source data); with duplicate staged
keys the SQL itself is nondeterministic. -/
theorem upsert_idempotent (t s : List Row) (hs : (s.map Row.id).Nodup) :
    upsert (upsert t s) s = upsert t s := by
  have h1 : (upsert t s).map (applyUpdate s) = upsert t s := by
    have hpt : ∀ x ∈ upsert t s, applyUpdate s x = x := by
      intro x hx
      rcases List.mem_append.mp hx with hx1 | hx2
      · obtain ⟨r, _, rfl⟩ := List.mem_map.mp hx1
        exact applyUpdate_applyUpdate s r
      · have hxs : x ∈ s := (List.mem_filter.mp hx2).1
        unfold applyUpdate
        rw [findKey_self Row.id hs hxs]
        rfl
    calc (upsert t s).map (applyUpdate s)
        = (upsert t s).map id := List.map_congr_left hpt
      _ = upsert t s := List.map_id _
  have h2 : insertedRows (upsert t s) s = [] := by
    unfold insertedRows
    rw [List.filter_eq_nil_iff]
    intro sr hsr
    have : hasKeyBy Row.id (upsert t s) (Row.id sr) = true := by
      cases hk : hasKeyBy Row.id t sr.id with
      | true =>
        obtain ⟨r, hr, hid⟩ := (hasKeyBy_true_iff Row.id).mp hk
        refine (hasKeyBy_true_iff Row.id).mpr ⟨applyUpdate s r, ?_, ?_⟩
        · exact List.mem_append_left _ (List.mem_map_of_mem _ hr)
        · rw [applyUpdate_id]; exact hid
      | false =>
        refine (hasKeyBy_true_iff Row.id).mpr ⟨sr, ?_, rfl⟩
        exact List.mem_append_right _ (List.mem_filter.mpr ⟨hsr, by simp [hk]⟩)
    simp [this]
  show (upsert t s).map (applyUpdate s) ++ insertedRows (upsert t s) s = upsert t s
  rw [h1, h2, List.append_nil]

/-- C1 witness: a concrete second merge changes nothing. -/
theorem upsert_idempotent_witness :
    (([⟨1, [some "a"]⟩, ⟨2, [none]⟩] : List Row).map Row.id).Nodup ∧
      upsert (upsert [⟨5, [some "z"]⟩, ⟨1, [some "old"]⟩] [⟨1, [some "a"]⟩, ⟨2, [none]⟩])
          [⟨1, [some "a"]⟩, ⟨2, [none]⟩] =
        upsert [⟨5, [some "z"]⟩, ⟨1, [some "old"]⟩] [⟨1, [some "a"]⟩, ⟨2, [none]⟩] :=
  ⟨by decide, upsert_idempotent _ _ (by decide)⟩

/-- C2. Anti-join completeness of `SunshineTransformLoad.upsert`: a staged
row whose key is absent from the target becomes exactly one inserted row
(and afterwards is the unique row of the merge result with that key); a
staged row whose key is present inserts nothing and updates the one matched
target row to the staged values.  Keys are assumed unique on both sides
(primary-key discipline). -/
theorem upsert_antijoin_complete (t s : List Row)
    (ht : (t.map Row.id).Nodup) (hs : (s.map Row.id).Nodup)
    (sr : Row) (hmem : sr ∈ s) :
    (upsert t s).filter (fun r => decide (r.id = sr.id)) = [sr] ∧
    (hasKeyBy Row.id t sr.id = false →
      sr ∈ insertedRows t s ∧ (insertedRows t s).count sr = 1) ∧
    (hasKeyBy Row.id t sr.id = true →
      (insertedRows t s).filter (fun r => decide (r.id = sr.id)) = [] ∧
      ∀ r ∈ t, r.id = sr.id → applyUpdate s r = sr) := by
  have hfind : findKey Row.id s sr.id = some sr := findKey_self Row.id hs hmem
  have hsplit : (upsert t s).filter (fun r => decide (r.id = sr.id)) =
      (t.filter (fun r => decide (r.id = sr.id))).map (applyUpdate s) ++
        (insertedRows t s).filter (fun r => decide (r.id = sr.id)) := by
    unfold upsert
    rw [List.filter_append, filter_map_key Row.id Row.id (applyUpdate s) (applyUpdate_id s)]
  cases hk : hasKeyBy Row.id t sr.id with
  | false =>
    have htf : t.filter (fun r => decide (r.id = sr.id)) = [] := filter_key_nil Row.id hk
    have hsr_ins : sr ∈ insertedRows t s := List.mem_filter.mpr ⟨hmem, by simp [hk]⟩
    have hins_nodup : ((insertedRows t s).map Row.id).Nodup :=
      hs.sublist (List.Sublist.map Row.id (List.filter_sublist s))
    have hins_filter : (insertedRows t s).filter (fun r => decide (r.id = sr.id)) = [sr] :=
      filter_key_single Row.id hins_nodup hsr_ins rfl
    refine ⟨?_, fun _ => ⟨hsr_ins, ?_⟩, fun hcontra => by simp [hk] at hcontra⟩
    · rw [hsplit, htf, hins_filter]
      rfl
    · have : (insertedRows t s).Nodup :=
        (List.Nodup.of_map Row.id hs).filter _
      exact List.count_eq_one_of_mem this hsr_ins
  | true =>
    obtain ⟨r0, hr0, hid0⟩ := (hasKeyBy_true_iff Row.id).mp hk
    have htf : t.filter (fun r => decide (r.id = sr.id)) = [r0] :=
      filter_key_single Row.id ht hr0 hid0
    have happ : ∀ r ∈ t, r.id = sr.id → applyUpdate s r = sr := by
      intro r _ hrid
      unfold applyUpdate
      rw [hrid, hfind]
      rfl
    have hins_filter : (insertedRows t s).filter (fun r => decide (r.id = sr.id)) = [] := by
      rw [List.filter_eq_nil_iff]
      intro x hx
      simp only [decide_eq_true_eq]
      intro hxk
      have hxs : x ∈ s := (List.mem_filter.mp hx).1
      have hxpred := (List.mem_filter.mp hx).2
      have hxsr : x = sr := List.inj_on_of_nodup_map hs hxs hmem hxk
      rw [hxsr] at hxpred
      simp [hk] at hxpred
    refine ⟨?_, fun hcontra => by simp [hk] at hcontra, fun _ => ⟨hins_filter, happ⟩⟩
    rw [hsplit, htf, hins_filter]
    simp [happ r0 hr0 hid0]

/-- C2 witness: one present key and one absent key, concretely. -/
theorem upsert_antijoin_complete_witness :
    (([⟨1, [some "t"]⟩] : List Row).map Row.id).Nodup ∧
      (([⟨1, [some "n"]⟩, ⟨2, [some "m"]⟩] : List Row).map Row.id).Nodup ∧
      (⟨2, [some "m"]⟩ : Row) ∈ ([⟨1, [some "n"]⟩, ⟨2, [some "m"]⟩] : List Row) ∧
      ((upsert [⟨1, [some "t"]⟩] [⟨1, [some "n"]⟩, ⟨2, [some "m"]⟩]).filter
          (fun r => decide (r.id = 2)) = [⟨2, [some "m"]⟩] ∧
        (hasKeyBy Row.id [⟨1, [some "t"]⟩] 2 = false →
          (⟨2, [some "m"]⟩ : Row) ∈ insertedRows [⟨1, [some "t"]⟩] [⟨1, [some "n"]⟩, ⟨2, [some "m"]⟩] ∧
          (insertedRows [⟨1, [some "t"]⟩] [⟨1, [some "n"]⟩, ⟨2, [some "m"]⟩]).count ⟨2, [some "m"]⟩ = 1) ∧
        (hasKeyBy Row.id [⟨1, [some "t"]⟩] 2 = true →
          (insertedRows [⟨1, [some "t"]⟩] [⟨1, [some "n"]⟩, ⟨2, [some "m"]⟩]).filter
              (fun r => decide (r.id = 2)) = [] ∧
          ∀ r ∈ ([⟨1, [some "t"]⟩] : List Row), r.id = 2 →
            applyUpdate [⟨1, [some "n"]⟩, ⟨2, [some "m"]⟩] r = ⟨2, [some "m"]⟩)) :=
  ⟨by decide, by decide, by decide,
    upsert_antijoin_complete [⟨1, [some "t"]⟩] [⟨1, [some "n"]⟩, ⟨2, [some "m"]⟩]
      (by decide) (by decide) ⟨2, [some "m"]⟩ (by decide)⟩

/-! ### Officers: the key+flag partitioned relation

`SunshineOfficers` (current = TRUE) and `SunshinePrevOfficers`
(current = FALSE) share the `officers` target relation; their `upsert`
matches `officers.id = subq.id AND officers.current = subq.current` and the
insert anti-joins on the same `(id, current)` pair. -/

structure ORow where
  id : Nat
  current : Bool
  fields : List (Option String)
deriving DecidableEq, Repr

/-- The composite merge key of the officers relation. -/
def officerKey (r : ORow) : Nat × Bool := (r.id, r.current)

/-- Update arm of `SunshineOfficers.upsert`: matched on `(id, current)`. -/
def oapplyUpdate (staging : List ORow) (r : ORow) : ORow :=
  (findKey officerKey staging (officerKey r)).getD r

/-- Insert arm of `SunshineOfficers.upsert`: anti-join on `(id, current)`. -/
def oinsertedRows (target staging : List ORow) : List ORow :=
  staging.filter (fun sr => !(hasKeyBy officerKey target (officerKey sr)))

/-- `SunshineOfficers.upsert` / `SunshinePrevOfficers.upsert`. -/
def upsertOfficers (target staging : List ORow) : List ORow :=
  target.map (oapplyUpdate staging) ++ oinsertedRows target staging

theorem oapplyUpdate_current (s : List ORow) (r : ORow) :
    (oapplyUpdate s r).current = r.current := by
  unfold oapplyUpdate
  cases h : findKey officerKey s (officerKey r) with
  | none => rfl
  | some r2 =>
    have hk := (findKey_eq_some h).1
    simp only [Option.getD_some]
    exact congrArg Prod.snd hk

theorem oapplyUpdate_of_other_partition (s : List ORow) (c : Bool)
    (hall : ∀ x ∈ s, x.current = c) (r : ORow) (hr : r.current = !c) :
    oapplyUpdate s r = r := by
  unfold oapplyUpdate
  have hnone : findKey officerKey s (officerKey r) = none := by
    unfold findKey
    apply List.find?_eq_none.mpr
    intro x hx
    simp only [decide_eq_true_eq]
    intro hkey
    have hcur : x.current = r.current := congrArg Prod.snd hkey
    rw [hall x hx, hr] at hcur
    cases c <;> simp at hcur
  rw [hnone]
  rfl

/-- C4. Partition correctness of the officers merge: the predicate matches
on the `id` key *and* the `current` flag.  When every staged row carries
flag `c` (as each of the two officer datasets does), (i) the rows of the
opposite partition `!c` come out of the merge exactly as they went in — a
current and a historical record sharing an `id` never overwrite each
other — and (ii) the `c`-partition of the result is exactly the merge of
the `c`-partition of the target with the staged rows, i.e. every update
and insert lands in its own partition. -/
theorem officers_partition (t s : List ORow) (c : Bool)
    (h : ∀ r ∈ s, r.current = c) :
    ((upsertOfficers t s).filter (fun r => decide (r.current = !c)) =
      t.filter (fun r => decide (r.current = !c))) ∧
    ((upsertOfficers t s).filter (fun r => decide (r.current = c)) =
      upsertOfficers (t.filter (fun r => decide (r.current = c))) s) := by
  constructor
  · unfold upsertOfficers
    rw [List.filter_append,
      filter_map_key ORow.current ORow.current (oapplyUpdate s) (oapplyUpdate_current s)]
    have hins : (oinsertedRows t s).filter (fun r => decide (r.current = !c)) = [] := by
      rw [List.filter_eq_nil_iff]
      intro x hx
      have hxs : x ∈ s := (List.mem_filter.mp hx).1
      simp only [decide_eq_true_eq]
      rw [h x hxs]
      cases c <;> simp
    rw [hins, List.append_nil]
    have : ∀ r ∈ t.filter (fun r => decide (r.current = !c)), oapplyUpdate s r = r := by
      intro r hr
      have hrc : r.current = !c := by
        have := (List.mem_filter.mp hr).2
        simpa using this
      exact oapplyUpdate_of_other_partition s c h r hrc
    calc (t.filter (fun r => decide (r.current = !c))).map (oapplyUpdate s)
        = (t.filter (fun r => decide (r.current = !c))).map id := List.map_congr_left this
      _ = t.filter (fun r => decide (r.current = !c)) := List.map_id _
  · unfold upsertOfficers
    rw [List.filter_append,
      filter_map_key ORow.current ORow.current (oapplyUpdate s) (oapplyUpdate_current s)]
    have hins : (oinsertedRows t s).filter (fun r => decide (r.current = c)) =
        oinsertedRows t s := by
      apply List.filter_eq_self.mpr
      intro x hx
      have hxs : x ∈ s := (List.mem_filter.mp hx).1
      simp [h x hxs]
    rw [hins]
    congr 1
    unfold oinsertedRows
    apply List.filter_congr
    intro sr hsr
    have hkeys : hasKeyBy officerKey (t.filter (fun r => decide (r.current = c)))
        (officerKey sr) = hasKeyBy officerKey t (officerKey sr) := by
      apply hasKeyBy_filter
      intro x hxk
      have hcur : x.current = sr.current := congrArg Prod.snd hxk
      simp [hcur, h sr hsr]
    rw [hkeys]

/-- C4 witness: a historical (`current = false`) target row whose `id`
collides with a staged current row survives the merge untouched. -/
theorem officers_partition_witness :
    (∀ r ∈ ([⟨1, true, [some "new"]⟩] : List ORow), r.current = true) ∧
      ((upsertOfficers [⟨1, false, [some "hist"]⟩, ⟨1, true, [some "cur"]⟩]
            [⟨1, true, [some "new"]⟩]).filter (fun r => decide (r.current = !true)) =
        ([⟨1, false, [some "hist"]⟩, ⟨1, true, [some "cur"]⟩] : List ORow).filter
          (fun r => decide (r.current = !true)) ∧
      (upsertOfficers [⟨1, false, [some "hist"]⟩, ⟨1, true, [some "cur"]⟩]
            [⟨1, true, [some "new"]⟩]).filter (fun r => decide (r.current = true)) =
        upsertOfficers
          (([⟨1, false, [some "hist"]⟩, ⟨1, true, [some "cur"]⟩] : List ORow).filter
            (fun r => decide (r.current = true)))
          [⟨1, true, [some "new"]⟩]) :=
  ⟨by decide,
    officers_partition [⟨1, false, [some "hist"]⟩, ⟨1, true, [some "cur"]⟩]
      [⟨1, true, [some "new"]⟩] true (by decide)⟩

/-! ### Candidates: managed timestamps

`SunshineCandidates.upsert` excludes `date_added`, `last_update` (and
`ocd_id`) from its header.  Its UPDATE arm sets the header fields plus
`last_update = NOW()`; its INSERT arm selects the header fields plus
`NOW() AS last_update, NOW() AS date_added`.  The model passes the
server-side `NOW()` in as `now`. -/

structure CandRow where
  id : Nat
  fields : List (Option String)
deriving DecidableEq, Repr

structure CandTargetRow where
  id : Nat
  fields : List (Option String)
  last_update : Nat
  date_added : Nat
deriving DecidableEq, Repr

/-- Update arm of `SunshineCandidates.upsert`: header fields from the
staging row, `last_update = NOW()`, `date_added` untouched. -/
def candApplyUpdate (now : Nat) (staging : List CandRow) (r : CandTargetRow) : CandTargetRow :=
  match findKey CandRow.id staging r.id with
  | some sr => { id := sr.id, fields := sr.fields, last_update := now, date_added := r.date_added }
  | none => r

/-- Insert arm of `SunshineCandidates.upsert`: header fields from the
staging row plus `NOW() AS last_update, NOW() AS date_added`. -/
def candInsertRow (now : Nat) (sr : CandRow) : CandTargetRow :=
  { id := sr.id, fields := sr.fields, last_update := now, date_added := now }

/-- Anti-join of `SunshineCandidates.upsert` (`LEFT JOIN ... USING(id)
WHERE data.id IS NULL`). -/
def candInsertedRows (target : List CandTargetRow) (staging : List CandRow) : List CandRow :=
  staging.filter (fun sr => !(hasKeyBy CandTargetRow.id target sr.id))

/-- `SunshineCandidates.upsert`. -/
def upsertCandidates (target : List CandTargetRow) (staging : List CandRow)
    (now : Nat) : List CandTargetRow :=
  target.map (candApplyUpdate now staging) ++
    (candInsertedRows target staging).map (candInsertRow now)

theorem candApplyUpdate_id (now : Nat) (staging : List CandRow) (r : CandTargetRow) :
    (candApplyUpdate now staging r).id = r.id := by
  unfold candApplyUpdate
  cases h : findKey CandRow.id staging r.id with
  | none => rfl
  | some sr => simpa using (findKey_eq_some h).1

/-- C5. Timestamp discipline of `SunshineCandidates.upsert`: a staged row
with a brand-new key is inserted as the unique result row with that key,
carrying `date_added = now` and `last_update = now`; a staged row whose key
matches target row `r0` produces exactly one updated row, with
`last_update = now` and `date_added` equal to the pre-existing
`r0.date_added`. -/
theorem candidates_timestamps (t : List CandTargetRow) (s : List CandRow) (now : Nat)
    (ht : (t.map CandTargetRow.id).Nodup) (hs : (s.map CandRow.id).Nodup)
    (sr : CandRow) (hmem : sr ∈ s) :
    (hasKeyBy CandTargetRow.id t sr.id = false →
      (upsertCandidates t s now).filter (fun r => decide (r.id = sr.id)) =
        [candInsertRow now sr] ∧
      (candInsertRow now sr).date_added = now ∧ (candInsertRow now sr).last_update = now) ∧
    (∀ r0 ∈ t, r0.id = sr.id →
      (upsertCandidates t s now).filter (fun r => decide (r.id = sr.id)) =
        [candApplyUpdate now s r0] ∧
      candApplyUpdate now s r0 =
        { id := sr.id, fields := sr.fields, last_update := now,
          date_added := r0.date_added }) := by
  have hfind : findKey CandRow.id s sr.id = some sr := findKey_self CandRow.id hs hmem
  have hsplit : (upsertCandidates t s now).filter (fun r => decide (r.id = sr.id)) =
      (t.filter (fun r => decide (r.id = sr.id))).map (candApplyUpdate now s) ++
        ((candInsertedRows t s).filter (fun b => decide (b.id = sr.id))).map
          (candInsertRow now) := by
    unfold upsertCandidates
    rw [List.filter_append,
      filter_map_key CandTargetRow.id CandTargetRow.id (candApplyUpdate now s)
        (candApplyUpdate_id now s),
      filter_map_key CandTargetRow.id CandRow.id (candInsertRow now) (fun _ => rfl)]
  constructor
  · intro hk
    have htf : t.filter (fun r => decide (r.id = sr.id)) = [] :=
      filter_key_nil CandTargetRow.id hk
    have hins_nodup : ((candInsertedRows t s).map CandRow.id).Nodup :=
      hs.sublist (List.Sublist.map CandRow.id (List.filter_sublist s))
    have hsr_ins : sr ∈ candInsertedRows t s := List.mem_filter.mpr ⟨hmem, by simp [hk]⟩
    have hins_filter : (candInsertedRows t s).filter (fun b => decide (b.id = sr.id)) = [sr] :=
      filter_key_single CandRow.id hins_nodup hsr_ins rfl
    refine ⟨?_, rfl, rfl⟩
    rw [hsplit, htf, hins_filter]
    rfl
  · intro r0 hr0 hid0
    have htf : t.filter (fun r => decide (r.id = sr.id)) = [r0] :=
      filter_key_single CandTargetRow.id ht hr0 hid0
    have hins_filter : (candInsertedRows t s).filter (fun b => decide (b.id = sr.id)) = [] := by
      rw [List.filter_eq_nil_iff]
      intro x hx
      simp only [decide_eq_true_eq]
      intro hxk
      have hxs : x ∈ s := (List.mem_filter.mp hx).1
      have hxpred := (List.mem_filter.mp hx).2
      have hkt : hasKeyBy CandTargetRow.id t sr.id = true :=
        (hasKeyBy_true_iff CandTargetRow.id).mpr ⟨r0, hr0, hid0⟩
      have hxsr : x = sr := List.inj_on_of_nodup_map hs hxs hmem hxk
      rw [hxsr] at hxpred
      simp [hkt] at hxpred
    have happ : candApplyUpdate now s r0 =
        { id := sr.id, fields := sr.fields, last_update := now,
          date_added := r0.date_added } := by
      unfold candApplyUpdate
      rw [hid0, hfind]
    refine ⟨?_, happ⟩
    rw [hsplit, htf, hins_filter]
    rfl

/-- C5 witness: key 1 exists (keeps its `date_added = 17`, gets
`last_update = 99`); key 2 is new (gets both timestamps `= 99`). -/
theorem candidates_timestamps_witness :
    (([⟨1, [some "t"], 3, 17⟩] : List CandTargetRow).map CandTargetRow.id).Nodup ∧
      (([⟨1, [some "n"]⟩, ⟨2, [some "m"]⟩] : List CandRow).map CandRow.id).Nodup ∧
      (⟨2, [some "m"]⟩ : CandRow) ∈ ([⟨1, [some "n"]⟩, ⟨2, [some "m"]⟩] : List CandRow) ∧
      ((hasKeyBy CandTargetRow.id [⟨1, [some "t"], 3, 17⟩] 2 = false →
        (upsertCandidates [⟨1, [some "t"], 3, 17⟩] [⟨1, [some "n"]⟩, ⟨2, [some "m"]⟩] 99).filter
            (fun r => decide (r.id = 2)) = [candInsertRow 99 ⟨2, [some "m"]⟩] ∧
        (candInsertRow 99 ⟨2, [some "m"]⟩).date_added = 99 ∧
        (candInsertRow 99 ⟨2, [some "m"]⟩).last_update = 99) ∧
      (∀ r0 ∈ ([⟨1, [some "t"], 3, 17⟩] : List CandTargetRow), r0.id = 2 →
        (upsertCandidates [⟨1, [some "t"], 3, 17⟩] [⟨1, [some "n"]⟩, ⟨2, [some "m"]⟩] 99).filter
            (fun r => decide (r.id = 2)) =
          [candApplyUpdate 99 [⟨1, [some "n"]⟩, ⟨2, [some "m"]⟩] r0] ∧
        candApplyUpdate 99 [⟨1, [some "n"]⟩, ⟨2, [some "m"]⟩] r0 =
          { id := 2, fields := [some "m"], last_update := 99,
            date_added := r0.date_added })) :=
  ⟨by decide, by decide, by decide,
    candidates_timestamps [⟨1, [some "t"], 3, 17⟩] [⟨1, [some "n"]⟩, ⟨2, [some "m"]⟩] 99
      (by decide) (by decide) ⟨2, [some "m"]⟩ (by decide)⟩

/-! ### Row normalization

Cell values after normalization: null (Python `None`), text, or the boolean
produced by the committees status recoding. -/

inductive Value where
  | null : Value
  | text : String → Value
  | bool : Bool → Value
deriving DecidableEq, Repr

/-- The whitespace set of Python's `str.strip()` (ASCII part; the legacy
files are latin-1 decoded, where these are the blanks that occur). -/
def pyIsSpace (ch : Char) : Bool :=
  ch == ' ' || ch == '\t' || ch == '\n' || ch == '\r' || ch == '\x0b' || ch == '\x0c'

/-- Python's `cell.strip()`. -/
def pyStrip (s : String) : String :=
  ⟨((s.data.dropWhile pyIsSpace).reverse.dropWhile pyIsSpace).reverse⟩

/-- Cell rule of the base `SunshineTransformLoad.transform`:
`row[idx] = cell.strip()`, then `if not row[idx]: row[idx] = None` — the
blank test reads the *stripped* value. -/
def normalizeCell (cell : String) : Value :=
  if pyStrip cell = "" then Value.null else Value.text (pyStrip cell)

/-- Cell rule of the dataset-specific transforms (`SunshineCommittees`,
`SunshineOfficers`, `SunshinePrevOfficers`, `SunshineCandidacy`,
`SunshineCandidateCommittees`, `SunshineOfficerCommittees`):
`row[idx] = cell.strip()`, then `if not cell: row[idx] = None` — the blank
test reads the *original* cell, so a whitespace-only cell stays the
stripped empty string. -/
def subNormalizeCell (cell : String) : Value :=
  if cell = "" then Value.null else Value.text (pyStrip cell)

/-- Positional recodings of `SunshineCommittees.transform`: column 14 is
the status flag (`'A'` → true, anything else → false), columns 23 and 24
are position codes (`'O'` → `oppose`, `'S'` → `support`, else null).
Faithful for rows of at least 25 cells (shorter rows make the Python
indexing raise). -/
def committeesRecode (vals : List Value) : List Value :=
  vals.mapIdx fun i v =>
    if i = 14 then Value.bool (decide (v = Value.text "A"))
    else if i = 23 ∨ i = 24 then
      if v = Value.text "O" then Value.text "oppose"
      else if v = Value.text "S" then Value.text "support"
      else Value.null
    else v

/-- Cell pass plus recodings of `SunshineCommittees.transform`. -/
def committeesNormalizeRow (row : List String) : List Value :=
  committeesRecode (row.map subNormalizeCell)

/-- One row of the base `SunshineTransformLoad.transform`: empty rows are
skipped (`if row:`), others are zipped against the driver's header. -/
def transformRow (header : List String) (row : List String) :
    Option (List (String × Value)) :=
  if row.isEmpty then none else some (header.zip (row.map normalizeCell))

/-- One row of `SunshineCommittees.transform`. -/
def committeesTransformRow (header : List String) (row : List String) :
    Option (List (String × Value)) :=
  if row.isEmpty then none else some (header.zip (committeesNormalizeRow row))

/-- C6 counterexample: in the dataset-specific transforms the blank test
reads the original cell, so a whitespace-only cell — blank after
stripping — is emitted as the empty string, not as null, contradicting
the blank-cells-become-null part of the claim. -/
theorem committees_blank_cell_cex :
    pyStrip " " = "" ∧ subNormalizeCell " " = Value.text "" ∧
      Value.text "" ≠ Value.null ∧ normalizeCell " " = Value.null := by
  refine ⟨by decide, by decide, by decide, by decide⟩

/-- C6 amended: the normalizers are deterministic functions of the raw
cells, and the base `SunshineTransformLoad.transform` nulls exactly the
cells that are blank after stripping and never emits an empty-string
text value; but the dataset-specific transforms null only cells that were
empty *before* stripping, and emit the empty string exactly on
whitespace-only nonempty cells. -/
theorem normalize_blank_cells (cell : String) :
    (normalizeCell cell = Value.null ↔ pyStrip cell = "") ∧
    (∀ s : String, normalizeCell cell = Value.text s → s ≠ "") ∧
    (subNormalizeCell cell = Value.null ↔ cell = "") ∧
    (subNormalizeCell cell = Value.text "" ↔ (cell ≠ "" ∧ pyStrip cell = "")) := by
  by_cases h2 : cell = ""
  · subst h2
    refine ⟨by decide, ?_, by decide, by decide⟩
    intro s hs
    rw [show normalizeCell "" = Value.null from by decide] at hs
    simp at hs
  · by_cases h1 : pyStrip cell = ""
    · refine ⟨by simp [normalizeCell, h1], ?_, by simp [subNormalizeCell, h2, h1], ?_⟩
      · intro s hs
        unfold normalizeCell at hs
        rw [if_pos h1] at hs
        simp at hs
      · simp [subNormalizeCell, h2, h1]
    · refine ⟨by simp [normalizeCell, h1], ?_, by simp [subNormalizeCell, h2], ?_⟩
      · intro s hs
        unfold normalizeCell at hs
        rw [if_neg h1] at hs
        have hps := Value.text.inj hs
        intro h0
        rw [h0] at hps
        exact h1 hps
      · simp [subNormalizeCell, h2, h1]

/-- C6 amended witness at a whitespace-only cell. -/
theorem normalize_blank_cells_witness :
    (normalizeCell "\t " = Value.null ↔ pyStrip "\t " = "") ∧
    (∀ s : String, normalizeCell "\t " = Value.text s → s ≠ "") ∧
    (subNormalizeCell "\t " = Value.null ↔ "\t " = "") ∧
    (subNormalizeCell "\t " = Value.text "" ↔ ("\t " ≠ "" ∧ pyStrip "\t " = "")) :=
  normalize_blank_cells "\t "

/-! ### Column-count handling in the transforms

Only the base `SunshineTransformLoad.transform` routes rows through
csvkit's `RowChecker`.  The dataset-specific transforms iterate the raw
csv reader directly; `SunshineCandidateCommittees.transform` strips the
cells, pops the first cell, and zips the remainder against its two-field
header — Python's `zip` silently truncates to the shorter side. -/

/-- Header of `SunshineCandidateCommittees`. -/
def candidateCommitteesHeader : List String := ["committee_id", "candidate_id"]

/-- One row of `SunshineCandidateCommittees.transform`: cells stripped
(with the original-cell blank test), `row.pop(0)`, zipped with the
two-field header.  No column-count validation occurs. -/
def candidateCommitteesTransformRow (row : List String) :
    Option (List (String × Value)) :=
  if row.isEmpty then none
  else some (candidateCommitteesHeader.zip ((row.map subNormalizeCell).drop 1))

theorem map_fst_zip_take {α β : Type} (l1 : List α) (l2 : List β) :
    (l1.zip l2).map Prod.fst = l1.take l2.length := by
  induction l1 generalizing l2 with
  | nil => simp
  | cons a l ih =>
    cases l2 with
    | nil => simp
    | cons b m => simp [List.zip_cons_cons, ih]

/-- C7 counterexample: a four-cell raw row — one more cell than the three
(`id` plus two link fields) this dataset's layout carries — is not dropped
or logged by `SunshineCandidateCommittees.transform`: it is emitted
anyway, the excess cell silently discarded by `zip`. -/
theorem candidate_committees_count_cex :
    candidateCommitteesTransformRow ["1", "10", "20", "999"] =
      some [("committee_id", Value.text "10"), ("candidate_id", Value.text "20")] ∧
    (["1", "10", "20", "999"] : List String).length ≠
      candidateCommitteesHeader.length + 1 := by
  refine ⟨by decide, by decide⟩

/-- C7 amended: the dataset-specific transforms perform no per-row
column-count validation.  `SunshineCandidateCommittees.transform` emits
every nonempty raw row; the emitted record is the header zipped against
the popped row, truncated to the shorter of the two — a short row yields a
record missing trailing header fields, a long row silently loses cells.
(Only the base `SunshineTransformLoad.transform` filters rows through
csvkit's `RowChecker`.) -/
theorem subclass_transform_truncates (row : List String) (h : row ≠ []) :
    ∃ rec0, candidateCommitteesTransformRow row = some rec0 ∧
      rec0.length = min candidateCommitteesHeader.length (row.length - 1) ∧
      rec0.map Prod.fst = candidateCommitteesHeader.take (row.length - 1) := by
  refine ⟨candidateCommitteesHeader.zip ((row.map subNormalizeCell).drop 1), ?_, ?_, ?_⟩
  · unfold candidateCommitteesTransformRow
    rw [if_neg (by simpa using h)]
  · simp
  · rw [map_fst_zip_take]
    simp

/-- C7 amended witness: a two-cell row (one cell short) is still emitted,
with a single-field record. -/
theorem subclass_transform_truncates_witness :
    ∃ rec0, candidateCommitteesTransformRow ["1", "10"] = some rec0 ∧
      rec0.length = min candidateCommitteesHeader.length ((["1", "10"] : List String).length - 1) ∧
      rec0.map Prod.fst = candidateCommitteesHeader.take ((["1", "10"] : List String).length - 1) :=
  subclass_transform_truncates ["1", "10"] (by decide)

/-! ### Transaction handling of the loader

`SunshineTransformLoad.executeTransaction` wraps one query in
`begin/commit`; its `except sa.exc.ProgrammingError: trans.rollback()`
clause has no re-raise, so a failing query rolls the state back and the
exception disappears.  `update` wraps the merge in the identical pattern.
A query is modelled as a state transformer that either produces the new
database state or raises a `ProgrammingError`. -/

inductive QueryResult (α : Type) where
  | ok : α → QueryResult α
  | programmingError : QueryResult α
deriving DecidableEq, Repr

/-- `SunshineTransformLoad.executeTransaction`: commit on success; on a
`ProgrammingError` roll back to the incoming state and swallow the error
(the function returns normally either way). -/
def executeTransaction {α : Type} (db : α) (query : α → QueryResult α) : α :=
  match query db with
  | QueryResult.ok db2 => db2
  | QueryResult.programmingError => db

/-- The batch loop of `SunshineTransformLoad.load`: each batch insert goes
through `executeTransaction`, and the loop continues to the next batch
whatever happened. -/
def loadBatchesRun {α β : Type} (db : α) (batches : List β)
    (ins : α → β → QueryResult α) : α :=
  batches.foldl (fun d b => executeTransaction d (fun x => ins x b)) db

/-- The merge call of `SunshineTransformLoad.update`: the upsert statement
in a transaction with the same catch-and-swallow `ProgrammingError`
handler. -/
def updateRun {α : Type} (db : α) (mergeQuery : α → QueryResult α) : α :=
  executeTransaction db mergeQuery

/-- A concrete batch-insert query: appends the batch unless it contains
the poison row 13 (standing for a schema/type mismatch). -/
def badBatchInsert (d : List Nat) (b : List Nat) : QueryResult (List Nat) :=
  if b.contains 13 then QueryResult.programmingError else QueryResult.ok (d ++ b)

/-- C3 counterexample: the first batch fails with a `ProgrammingError`,
yet the load completes normally — the failed batch is silently skipped,
the second batch is still written, and no error reaches the caller
(`loadBatchesRun`, like `load`, has no error outcome at all). -/
theorem load_error_swallowed_cex :
    badBatchInsert [] [13] = QueryResult.programmingError ∧
    loadBatchesRun [] [[13], [2]] badBatchInsert = [2] := by
  refine ⟨by decide, by decide⟩

/-- C3 amended: on a SQL `ProgrammingError` the failing transaction is
rolled back (the state is exactly the pre-transaction state) and the merge
is atomic (fully applied or not at all) — but the error is *not* surfaced:
`executeTransaction` and `update` catch it without re-raising, and the
loader proceeds to execute the remaining batches. -/
theorem transaction_rollback_swallow :
    (∀ (α : Type) (db : α) (q : α → QueryResult α),
      q db = QueryResult.programmingError → executeTransaction db q = db) ∧
    (∀ (α β : Type) (db : α) (b : β) (rest : List β) (ins : α → β → QueryResult α),
      ins db b = QueryResult.programmingError →
      loadBatchesRun db (b :: rest) ins = loadBatchesRun db rest ins) ∧
    (∀ (α : Type) (db : α) (q : α → QueryResult α),
      updateRun db q = db ∨
        ∃ db2, q db = QueryResult.ok db2 ∧ updateRun db q = db2) := by
  refine ⟨?_, ?_, ?_⟩
  · intro α db q h
    unfold executeTransaction
    rw [h]
  · intro α β db b rest ins h
    unfold loadBatchesRun
    rw [List.foldl_cons]
    congr 1
    unfold executeTransaction
    simp only [h]
  · intro α db q
    unfold updateRun executeTransaction
    cases h : q db with
    | ok db2 => exact Or.inr ⟨db2, rfl, rfl⟩
    | programmingError => exact Or.inl rfl

/-- C3 amended witness: the poisoned first batch is rolled back and
skipped; loading proceeds with the remaining batch. -/
theorem transaction_rollback_swallow_witness :
    loadBatchesRun [] [[13], [2]] badBatchInsert = loadBatchesRun [] [[2]] badBatchInsert :=
  transaction_rollback_swallow.2.1 (List Nat) (List Nat) [] [13] [[2]] badBatchInsert (by decide)

/-! ### Lifecycle of the staging relation

`SunshineTransformLoad.createTempTable` issues `CREATE TABLE temp_{t} AS
... WITH NO DATA` through the swallowing `executeTransaction`: when the
staging table already exists (it is a plain table, and nothing ever drops
it), the `CREATE` fails and the failure is ignored, so the old table and
its rows survive.  `load` appends the new rows; `update` runs the upsert;
no statement drops `temp_{t}`.  Only
`SunshineOfficerCommittees.createTempTable` first issues
`DROP TABLE IF EXISTS temp_{t}`. -/

structure LoadState where
  tempExists : Bool
  tempRows : List Row
  target : List Row
deriving DecidableEq, Repr

/-- `SunshineTransformLoad.createTempTable`: create the staging table if
absent; if it exists the `CREATE` raises and the error is swallowed,
leaving the table — rows included — as it was. -/
def createTempTable (s : LoadState) : LoadState :=
  if s.tempExists then s
  else { tempExists := true, tempRows := [], target := s.target }

/-- The row-writing effect of `SunshineTransformLoad.load`: the batches
are inserted into the existing staging table. -/
def stageRows (s : LoadState) (rows : List Row) : LoadState :=
  { s with tempRows := s.tempRows ++ rows }

/-- `SunshineTransformLoad.update`: run the upsert against the staging
rows; the staging table is not dropped or emptied. -/
def updateMerge (s : LoadState) : LoadState :=
  { s with target := upsert s.target s.tempRows }

/-- One `load()` + `update()` run of a dataset. -/
def loadAndUpdate (s : LoadState) (rows : List Row) : LoadState :=
  updateMerge (stageRows (createTempTable s) rows)

/-- `SunshineOfficerCommittees.createTempTable`: `DROP TABLE IF EXISTS`
then `CREATE`, so this one staging table does start empty. -/
def ocCreateTempTable (s : LoadState) : LoadState :=
  { tempExists := true, tempRows := [], target := s.target }

/-- C8 counterexample: with a staging table left over from a previous run
(one stale row with id 7), a fresh load of the single row with id 8 merges
*both* rows into the target, and after the merge the staging table still
exists and still holds rows — it is neither replaced at run start nor
dropped after the merge. -/
theorem staging_leftover_cex :
    (loadAndUpdate ⟨true, [⟨7, [some "stale"]⟩], []⟩ [⟨8, [some "new"]⟩]).target =
      [⟨7, [some "stale"]⟩, ⟨8, [some "new"]⟩] ∧
    (⟨7, [some "stale"]⟩ : Row) ∈
      (loadAndUpdate ⟨true, [⟨7, [some "stale"]⟩], []⟩ [⟨8, [some "new"]⟩]).target ∧
    (loadAndUpdate ⟨true, [⟨7, [some "stale"]⟩], []⟩ [⟨8, [some "new"]⟩]).tempExists = true ∧
    (loadAndUpdate ⟨true, [⟨7, [some "stale"]⟩], []⟩ [⟨8, [some "new"]⟩]).tempRows ≠ [] := by
  refine ⟨by decide, by decide, by decide, by decide⟩

/-- C8 amended: the staging relation is *not* ephemeral in the generic
loader.  When the staging table already exists, a run merges the leftover
rows together with the newly staged ones, and after the merge the staging
table still exists with all those rows — nothing drops it.  Only
`SunshineOfficerCommittees.createTempTable` replaces its staging table at
run start. -/
theorem staging_not_ephemeral (s : LoadState) (rows : List Row)
    (h : s.tempExists = true) :
    (loadAndUpdate s rows).target = upsert s.target (s.tempRows ++ rows) ∧
    (loadAndUpdate s rows).tempRows = s.tempRows ++ rows ∧
    (loadAndUpdate s rows).tempExists = true ∧
    (∀ s2 : LoadState, ocCreateTempTable s2 = ⟨true, [], s2.target⟩) := by
  refine ⟨?_, ?_, ?_, fun s2 => rfl⟩ <;>
    simp [loadAndUpdate, createTempTable, stageRows, updateMerge, h]

/-- C8 amended witness. -/
theorem staging_not_ephemeral_witness :
    (loadAndUpdate ⟨true, [⟨7, []⟩], [⟨9, []⟩]⟩ [⟨8, []⟩]).target =
      upsert [⟨9, []⟩] ([⟨7, []⟩] ++ [⟨8, []⟩]) ∧
    (loadAndUpdate ⟨true, [⟨7, []⟩], [⟨9, []⟩]⟩ [⟨8, []⟩]).tempRows = [⟨7, []⟩] ++ [⟨8, []⟩] ∧
    (loadAndUpdate ⟨true, [⟨7, []⟩], [⟨9, []⟩]⟩ [⟨8, []⟩]).tempExists = true ∧
    (∀ s2 : LoadState, ocCreateTempTable s2 = ⟨true, [], s2.target⟩) :=
  staging_not_ephemeral ⟨true, [⟨7, []⟩], [⟨9, []⟩]⟩ [⟨8, []⟩] rfl

/-! ### Batching in `SunshineTransformLoad.load`

The loop appends each transformed row to `rows` and flushes whenever
`len(rows) % chunk_size == 0` (since `rows` is emptied at each flush, this
fires exactly when the buffer reaches `chunk_size`); a nonempty remainder
is flushed after the loop. -/

/-- The batch loop of `SunshineTransformLoad.load`: `cur` is the `rows`
buffer, the second list the records still to come; the result is the list
of flushed batches in order. -/
def loadBatchListGo {α : Type} (B : Nat) : List α → List α → List (List α)
  | cur, [] => if cur.isEmpty then [] else [cur]
  | cur, r :: rs =>
    let cur2 := cur ++ [r]
    if cur2.length % B = 0 then cur2 :: loadBatchListGo B [] rs
    else loadBatchListGo B cur2 rs

/-- The batches `SunshineTransformLoad.load` writes, given the transformed
record sequence and the chunk size. -/
def loadBatchList {α : Type} (records : List α) (B : Nat) : List (List α) :=
  loadBatchListGo B [] records

theorem loadBatchListGo_flatten {α : Type} (B : Nat) (hB : 0 < B) :
    ∀ (rs cur : List α), cur.length < B →
      (loadBatchListGo B cur rs).flatten = cur ++ rs := by
  intro rs
  induction rs with
  | nil =>
    intro cur _
    by_cases h : cur.isEmpty <;>
      simp_all [loadBatchListGo, List.isEmpty_iff]
  | cons r rs ih =>
    intro cur hc
    simp only [loadBatchListGo]
    by_cases hmod : (cur ++ [r]).length % B = 0
    · rw [if_pos hmod]
      rw [List.flatten_cons, ih [] (by simpa using hB)]
      simp
    · rw [if_neg hmod]
      have hle : (cur ++ [r]).length ≤ B := by
        simp only [List.length_append, List.length_singleton]
        omega
      have hlt : (cur ++ [r]).length < B := by
        rcases Nat.lt_or_ge (cur ++ [r]).length B with h | h
        · exact h
        · exfalso
          apply hmod
          rw [Nat.le_antisymm hle h]
          exact Nat.mod_self B
      rw [ih _ hlt]
      simp

theorem loadBatchListGo_length {α : Type} (B : Nat) (hB : 0 < B) :
    ∀ (rs cur : List α), cur.length < B →
      (loadBatchListGo B cur rs).length = (cur.length + rs.length + B - 1) / B := by
  intro rs
  induction rs with
  | nil =>
    intro cur hc
    by_cases h : cur.isEmpty
    · have hce : cur = [] := List.isEmpty_iff.mp h
      subst hce
      have h0 : loadBatchListGo B ([] : List α) [] = [] := by
        simp [loadBatchListGo]
      rw [h0]
      simp only [List.length_nil]
      symm
      apply Nat.div_eq_of_lt
      omega
    · have hne : cur ≠ [] := fun he => h (by simp [he])
      have hpos : 0 < cur.length := List.length_pos.mpr hne
      have h0 : loadBatchListGo B cur [] = [cur] := by
        simp [loadBatchListGo, List.isEmpty_iff, hne]
      rw [h0]
      simp only [List.length_cons, List.length_nil]
      rw [show cur.length + 0 + B - 1 = (cur.length - 1) + B from by omega,
        Nat.add_div_right _ hB,
        Nat.div_eq_of_lt (show cur.length - 1 < B from by omega)]
  | cons r rs ih =>
    intro cur hc
    simp only [loadBatchListGo]
    have hlen : (cur ++ [r]).length = cur.length + 1 := by simp
    by_cases hmod : (cur ++ [r]).length % B = 0
    · rw [if_pos hmod]
      have hfull : cur.length + 1 = B := by
        rw [hlen] at hmod
        have hdvd : B ∣ cur.length + 1 := Nat.dvd_of_mod_eq_zero hmod
        have hge : B ≤ cur.length + 1 := Nat.le_of_dvd (by omega) hdvd
        omega
      rw [List.length_cons, ih [] (by simpa using hB)]
      simp only [List.length_nil, List.length_cons]
      rw [show cur.length + (rs.length + 1) + B - 1 = (0 + rs.length + B - 1) + B from by omega,
        Nat.add_div_right _ hB]
    · rw [if_neg hmod]
      have hlt : (cur ++ [r]).length < B := by
        rcases Nat.lt_or_ge (cur ++ [r]).length B with h | h
        · exact h
        · exfalso
          apply hmod
          have hBeq : (cur ++ [r]).length = B := by omega
          rw [hBeq]
          exact Nat.mod_self B
      rw [ih _ hlt, hlen]
      simp only [List.length_cons]
      rw [show cur.length + 1 + rs.length + B - 1 =
        cur.length + (rs.length + 1) + B - 1 from by omega]

theorem loadBatchListGo_dropLast {α : Type} (B : Nat) (hB : 0 < B) :
    ∀ (rs cur : List α), cur.length < B →
      ∀ c ∈ (loadBatchListGo B cur rs).dropLast, c.length = B := by
  intro rs
  induction rs with
  | nil =>
    intro cur _ c hc
    by_cases h : cur.isEmpty <;> simp_all [loadBatchListGo]
  | cons r rs ih =>
    intro cur hcur c hc
    simp only [loadBatchListGo] at hc
    by_cases hmod : (cur ++ [r]).length % B = 0
    · rw [if_pos hmod] at hc
      have hfull : (cur ++ [r]).length = B := by
        have hle : (cur ++ [r]).length ≤ B := by
          simp only [List.length_append, List.length_singleton]
          omega
        have hdvd : B ∣ (cur ++ [r]).length := Nat.dvd_of_mod_eq_zero hmod
        have hge : B ≤ (cur ++ [r]).length := by
          apply Nat.le_of_dvd _ hdvd
          simp
        omega
      cases hgo : loadBatchListGo B ([] : List α) rs with
      | nil => simp [hgo] at hc
      | cons x xs =>
        rw [hgo, List.dropLast_cons_of_ne_nil (by simp)] at hc
        rcases List.mem_cons.mp hc with rfl | hc2
        · exact hfull
        · have := ih [] (by simpa using hB)
          rw [hgo] at this
          exact this c hc2
    · rw [if_neg hmod] at hc
      have hle : (cur ++ [r]).length ≤ B := by
        simp only [List.length_append, List.length_singleton]
        omega
      have hlt : (cur ++ [r]).length < B := by
        rcases Nat.lt_or_ge (cur ++ [r]).length B with h | h
        · exact h
        · exfalso
          apply hmod
          rw [Nat.le_antisymm hle h]
          exact Nat.mod_self B
      exact ih _ hlt c hc

theorem loadBatchListGo_ne_nil {α : Type} (B : Nat) :
    ∀ (rs cur : List α), ∀ c ∈ loadBatchListGo B cur rs, c ≠ [] := by
  intro rs
  induction rs with
  | nil =>
    intro cur c hc
    by_cases h : cur.isEmpty
    · simp [loadBatchListGo, h] at hc
    · have hne : cur ≠ [] := fun he => h (by simp [he])
      have hcc : c = cur := by
        simp [loadBatchListGo, List.isEmpty_iff, hne] at hc
        exact hc
      rw [hcc]
      exact hne
  | cons r rs ih =>
    intro cur c hc
    simp only [loadBatchListGo] at hc
    by_cases hmod : (cur ++ [r]).length % B = 0
    · rw [if_pos hmod] at hc
      rcases List.mem_cons.mp hc with rfl | hc2
      · simp
      · exact ih [] c hc2
    · rw [if_neg hmod] at hc
      exact ih _ c hc

/-- C9. Batching contract of `SunshineTransformLoad.load`: for `n`
transformed records and chunk size `B > 0`, the concatenation of the
written batches is exactly the record sequence (each record written once,
in order), exactly `⌈n / B⌉` batch inserts are issued, every batch but the
last holds exactly `B` rows, and no empty batch is ever written (the final
partial batch is flushed only when nonempty). -/
theorem load_batching {α : Type} (records : List α) (B : Nat) (hB : 0 < B) :
    (loadBatchList records B).flatten = records ∧
    (loadBatchList records B).length = (records.length + B - 1) / B ∧
    (∀ c ∈ (loadBatchList records B).dropLast, c.length = B) ∧
    (∀ c ∈ loadBatchList records B, c ≠ []) := by
  refine ⟨?_, ?_, ?_, ?_⟩
  · simpa using loadBatchListGo_flatten B hB records [] (by simpa using hB)
  · have := loadBatchListGo_length B hB records [] (by simpa using hB)
    simpa [loadBatchList] using this
  · exact loadBatchListGo_dropLast B hB records [] (by simpa using hB)
  · exact loadBatchListGo_ne_nil B records []

/-- C9 witness: seven records with chunk size 3 give batches of 3, 3, 2
... i.e. `⌈7/3⌉ = 3` inserts, all full but the last, none empty. -/
theorem load_batching_witness :
    (loadBatchList [10, 20, 30, 40, 50, 60, 70] 3).flatten = [10, 20, 30, 40, 50, 60, 70] ∧
    (loadBatchList [10, 20, 30, 40, 50, 60, 70] 3).length =
      (([10, 20, 30, 40, 50, 60, 70] : List Nat).length + 3 - 1) / 3 ∧
    (∀ c ∈ (loadBatchList ([10, 20, 30, 40, 50, 60, 70] : List Nat) 3).dropLast,
      c.length = 3) ∧
    (∀ c ∈ loadBatchList ([10, 20, 30, 40, 50, 60, 70] : List Nat) 3, c ≠ []) :=
  load_batching [10, 20, 30, 40, 50, 60, 70] 3 (by decide)

/-! ### The derived-view graph of `SunshineViews`

Each builder method first issues `REFRESH MATERIALIZED VIEW v`; the
`except sa.exc.ProgrammingError` clause — raised when the view does not
exist — switches to `CREATE MATERIALIZED VIEW v AS ...`.  Unlike the
loader's handler, `SunshineViews.executeTransaction` re-raises after
rolling back, so a `CREATE` that references a missing view propagates its
error.  The state is the set of existing materialized views (the base
tables always exist once the loaders have run, so only view-on-view reads
are tracked). -/

inductive ViewName where
  | expenditures_by_candidate : ViewName
  | receipts_by_week : ViewName
  | committee_receipts_by_week : ViewName
  | incumbent_candidates : ViewName
  | most_recent_filings : ViewName
  | condensed_receipts : ViewName
  | condensed_expenditures : ViewName
  | committee_money : ViewName
  | candidate_money : ViewName
  | full_search : ViewName
deriving DecidableEq, Repr

/-- The views each defining query reads (base tables omitted):
`condensed_receipts`/`condensed_expenditures` join `most_recent_filings`;
`committee_money` selects from `most_recent_filings`; `candidate_money`
joins `committee_money`; `full_search` unions over `condensed_receipts`
and `condensed_expenditures`. -/
def viewDeps : ViewName → List ViewName
  | ViewName.condensed_receipts => [ViewName.most_recent_filings]
  | ViewName.condensed_expenditures => [ViewName.most_recent_filings]
  | ViewName.committee_money => [ViewName.most_recent_filings]
  | ViewName.candidate_money => [ViewName.committee_money]
  | ViewName.full_search => [ViewName.condensed_receipts, ViewName.condensed_expenditures]
  | _ => []

/-- One builder method: refresh in place when the view exists; otherwise
create it from its defining query, which succeeds exactly when every view
it reads exists, and otherwise raises (re-raised by
`SunshineViews.executeTransaction`). -/
def buildView (state : List ViewName) (v : ViewName) : Except ViewName (List ViewName) :=
  if v ∈ state then Except.ok state
  else if (viewDeps v).all (fun d => decide (d ∈ state)) then Except.ok (v :: state)
  else Except.error v

/-- The fixed call order of `SunshineViews.makeAllViews`. -/
def makeAllViewsOrder : List ViewName :=
  [ViewName.expenditures_by_candidate, ViewName.receipts_by_week,
   ViewName.committee_receipts_by_week, ViewName.incumbent_candidates,
   ViewName.most_recent_filings, ViewName.condensed_receipts,
   ViewName.condensed_expenditures, ViewName.committee_money,
   ViewName.candidate_money, ViewName.full_search]

/-- `SunshineViews.makeAllViews`: run the builders in their fixed order. -/
def makeAllViews (state : List ViewName) : Except ViewName (List ViewName) :=
  makeAllViewsOrder.foldlM buildView state

/-- The view set after a successful from-scratch build. -/
def allViewsBuilt : List ViewName :=
  [ViewName.full_search, ViewName.candidate_money, ViewName.committee_money,
   ViewName.condensed_expenditures, ViewName.condensed_receipts,
   ViewName.most_recent_filings, ViewName.incumbent_candidates,
   ViewName.committee_receipts_by_week, ViewName.receipts_by_week,
   ViewName.expenditures_by_candidate]

/-- C10. `SunshineViews.makeAllViews` attempts the views in a fixed order
in which every view a defining query reads is attempted strictly earlier:
in particular `most_recent_filings` precedes `condensed_receipts` and
`condensed_expenditures`, those precede `committee_money` and
`candidate_money`, and `full_search` is last.  Consequently a from-scratch
run (no views yet; refresh fails, create succeeds) builds all ten views
without error, and a second run over the built state is a pure refresh
pass that changes nothing — each builder creates only when the refresh
fails because the view is absent. -/
theorem views_build_order :
    (∀ v ∈ makeAllViewsOrder, ∀ d ∈ viewDeps v,
      makeAllViewsOrder.indexOf d < makeAllViewsOrder.indexOf v) ∧
    makeAllViewsOrder.indexOf ViewName.most_recent_filings <
      makeAllViewsOrder.indexOf ViewName.condensed_receipts ∧
    makeAllViewsOrder.indexOf ViewName.most_recent_filings <
      makeAllViewsOrder.indexOf ViewName.condensed_expenditures ∧
    makeAllViewsOrder.indexOf ViewName.condensed_receipts <
      makeAllViewsOrder.indexOf ViewName.committee_money ∧
    makeAllViewsOrder.indexOf ViewName.condensed_expenditures <
      makeAllViewsOrder.indexOf ViewName.committee_money ∧
    makeAllViewsOrder.indexOf ViewName.condensed_receipts <
      makeAllViewsOrder.indexOf ViewName.candidate_money ∧
    makeAllViewsOrder.indexOf ViewName.condensed_expenditures <
      makeAllViewsOrder.indexOf ViewName.candidate_money ∧
    makeAllViewsOrder.indexOf ViewName.full_search = makeAllViewsOrder.length - 1 ∧
    makeAllViews [] = Except.ok allViewsBuilt ∧
    makeAllViews allViewsBuilt = Except.ok allViewsBuilt := by
  refine ⟨by decide, by decide, by decide, by decide, by decide, by decide, by decide,
    by decide, rfl, rfl⟩
